import Mathlib

/-
Verification of the real-time stream synchronization core of the
openclaw-mission-control dashboard.

The development shallowly embeds the client-side protocol consumers:
the SSE frame decoder, the update reconciler (task upsert, comment
append-with-dedup), the cursor tracker, and the chat state machine
(token accumulator, send path, reconnect lifecycle).  Text buffers are
modelled as lists of characters; machine state is passed explicitly.
-/

namespace OpenClaw

/-! ## Frame Decoder

Embedding of the SSE buffer/decode loop.  Per network read the code does:
buffer += chunk; buffer = buffer.replace of CRLF by LF over the whole
buffer; then repeatedly cut the buffer at the first blank line, emitting
the raw frame body before the cut.  Raw bodies are split on LF into
lines; an event line sets the event type (value after the colon,
trimmed), data lines concatenate their trimmed values.
-/

/-- Embedding of one pass of the global CRLF-to-LF replacement applied to
the whole buffer (left-to-right, non-overlapping). -/
def normalizeCRLF : List Char → List Char
  | [] => []
  | [c] => [c]
  | c :: d :: rest =>
    if c = '\r' ∧ d = '\n' then '\n' :: normalizeCRLF rest
    else c :: normalizeCRLF (d :: rest)

/-- Embedding of the inner frame-extraction loop: repeatedly find the first
blank line ("\n\n"), emit the raw body before it, continue after it.  The
accumulator holds the (reversed) prefix of the current raw body consumed
so far.  Returns the emitted raw bodies and the remaining buffer. -/
def extractAux (acc : List Char) : List Char → List (List Char) × List Char
  | [] => ([], acc.reverse)
  | [c] => ([], (c :: acc).reverse)
  | c :: d :: rest =>
    if c = '\n' ∧ d = '\n' then
      (acc.reverse :: (extractAux [] rest).1, (extractAux [] rest).2)
    else extractAux (c :: acc) (d :: rest)

/-- Frame extraction on a buffer, starting with an empty current body. -/
def extractFrames (buf : List Char) : List (List Char) × List Char :=
  extractAux [] buf

/-- Embedding of the per-read step: append the chunk, normalize the whole
buffer, then extract every complete frame.  Folded over a chunk list it
models the read loop; returns the raw frame bodies in emission order and
the final buffer. -/
def runChunks (buf : List Char) : List (List Char) → List (List Char) × List Char
  | [] => ([], buf)
  | c :: cs =>
    ((extractFrames (normalizeCRLF (buf ++ c))).1 ++
       (runChunks (extractFrames (normalizeCRLF (buf ++ c))).2 cs).1,
     (runChunks (extractFrames (normalizeCRLF (buf ++ c))).2 cs).2)

/-- Concatenation of a chunk list into the full delivered text. -/
def joinL : List (List Char) → List Char
  | [] => []
  | c :: cs => c ++ joinL cs

/-- Whitespace set of the JS trim applied to field values. -/
def isJsWS (c : Char) : Bool :=
  c = ' ' || c = '\t' || c = '\n' || c = '\r' || c = '\x0b' || c = '\x0c'

/-- Both-ends trim, as JS trim on field values. -/
def trimChars (l : List Char) : List Char :=
  ((l.dropWhile isJsWS).reverse.dropWhile isJsWS).reverse

/-- Embedding of the per-line field parse: an event line replaces the event
type with its trimmed value, a data line appends its trimmed value to the
data accumulator, other lines are ignored. -/
def parseFieldLine (acc : List Char × List Char) (line : List Char) :
    List Char × List Char :=
  if line.take 6 = "event:".data then (trimChars (line.drop 6), acc.2)
  else if line.take 5 = "data:".data then (acc.1, acc.2 ++ trimChars (line.drop 5))
  else acc

/-- Embedding of the raw-body parse: split on LF, fold the field lines over
the default state (event type "message", empty data). -/
def parseRawFrame (raw : List Char) : List Char × List Char :=
  (raw.splitOn '\n').foldl parseFieldLine ("message".data, [])

/-- Decoded (event type, data) frames produced by feeding the chunk list
through the read loop from a fresh decoder. -/
def decodeStream (chunks : List (List Char)) : List (List Char × List Char) :=
  ((runChunks [] chunks).1).map parseRawFrame

/-! ### Well-formedness of the delivered text

A valid event-stream text uses LF or CRLF line endings, so every carriage
return is immediately followed by a line feed; a trailing carriage return
is additionally tolerated (it can only appear when the text is a proper
prefix of a longer valid text, i.e. mid-delivery). -/

/-- Every CR is followed by an LF, except that a CR may stand last. -/
def wfCR : List Char → Bool
  | [] => true
  | [_] => true
  | c :: d :: rest =>
    if c = '\r' then decide (d = '\n') && wfCR rest
    else wfCR (d :: rest)

/-- No two consecutive LF characters (no blank-line separator present). -/
def noBlank : List Char → Bool
  | [] => true
  | [_] => true
  | c :: d :: rest => !(c = '\n' ∧ d = '\n' : Bool) && noBlank (d :: rest)

/-- Removal of every CR. -/
def eraseCR (s : List Char) : List Char := s.filter (fun c => c != '\r')

/-- The trailing CR of a buffer, if any. -/
def tailCR : List Char → List Char
  | [] => []
  | [c] => if c = '\r' then ['\r'] else []
  | _ :: d :: rest => tailCR (d :: rest)

/-! ### Structural lemmas about the well-formedness predicates -/

theorem noBlank_adj (u v : List Char) : noBlank (u ++ '\n' :: '\n' :: v) = false := by
  induction u with
  | nil => simp [noBlank]
  | cons a u ih =>
    cases hw : u ++ '\n' :: '\n' :: v with
    | nil => simp at hw
    | cons h t =>
      simp only [List.cons_append, hw, noBlank]
      rw [← hw, ih, Bool.and_false]

theorem noBlank_snoc (u : List Char) (c : Char) (h : noBlank u = true)
    (hb : u.getLast? = some '\n' → c ≠ '\n') : noBlank (u ++ [c]) = true := by
  induction u using noBlank.induct with
  | case1 => simp [noBlank]
  | case2 a =>
    have : ¬(a = '\n' ∧ c = '\n') := fun hc => hb (by simp [hc.1]) hc.2
    simp [noBlank, this]
  | case3 a b u ih =>
    simp only [noBlank, Bool.and_eq_true] at h
    simp only [List.cons_append, noBlank, Bool.and_eq_true]
    exact ⟨h.1, ih h.2 (by simpa using hb)⟩

theorem wfCR_cons_ne (c : Char) (l : List Char) (hc : c ≠ '\r') :
    wfCR (c :: l) = wfCR l := by
  cases l with
  | nil => simp [wfCR]
  | cons h t => simp [wfCR, hc]

theorem wfCR_cons_cr (d : Char) (rest : List Char) :
    wfCR ('\r' :: d :: rest) = (decide (d = '\n') && wfCR rest) := by
  simp [wfCR]

theorem wfCR_append_right (x y : List Char) (h : wfCR (x ++ y) = true) :
    wfCR y = true := by
  induction x using wfCR.induct with
  | case1 => simpa using h
  | case2 a =>
    cases y with
    | nil => rfl
    | cons b t =>
      have h2 : wfCR (a :: b :: t) = true := h
      by_cases ha : a = '\r'
      · subst ha
        rw [wfCR_cons_cr] at h2
        simp only [Bool.and_eq_true, decide_eq_true_eq] at h2
        rw [wfCR_cons_ne b t (by simp [h2.1])]
        exact h2.2
      · rwa [wfCR_cons_ne a (b :: t) ha] at h2
  | case3 d rest ih =>
    have h2 : wfCR ('\r' :: d :: (rest ++ y)) = true := h
    rw [wfCR_cons_cr] at h2
    simp only [Bool.and_eq_true] at h2
    exact ih h2.2
  | case4 c d rest hc ih =>
    have h2 : wfCR (c :: ((d :: rest) ++ y)) = true := h
    rw [wfCR_cons_ne c _ hc] at h2
    exact ih h2

theorem wfCR_append_left (x y : List Char) (h : wfCR (x ++ y) = true) :
    wfCR x = true := by
  induction x using wfCR.induct with
  | case1 => rfl
  | case2 a => rfl
  | case3 d rest ih =>
    have h2 : wfCR ('\r' :: d :: (rest ++ y)) = true := h
    rw [wfCR_cons_cr] at h2
    simp only [Bool.and_eq_true] at h2
    rw [wfCR_cons_cr]
    simp only [Bool.and_eq_true]
    exact ⟨h2.1, ih h2.2⟩
  | case4 c d rest hc ih =>
    have h2 : wfCR (c :: ((d :: rest) ++ y)) = true := h
    rw [wfCR_cons_ne c _ hc] at h2
    rw [wfCR_cons_ne c _ hc]
    exact ih h2

theorem tailCR_cases (z : List Char) : tailCR z = [] ∨ tailCR z = ['\r'] := by
  induction z using tailCR.induct with
  | case1 => exact Or.inl rfl
  | case2 => exact Or.inr (by simp [tailCR])
  | case3 c hc => exact Or.inl (by simp [tailCR, hc])
  | case4 c d rest ih => simpa [tailCR] using ih

theorem tailCR_append (x y : List Char) :
    tailCR (x ++ y) = if y = [] then tailCR x else tailCR y := by
  induction x using tailCR.induct with
  | case1 =>
    cases y with
    | nil => simp
    | cons h t => simp
  | case2 =>
    cases y with
    | nil => simp
    | cons h t => simp [tailCR]
  | case3 c hc =>
    cases y with
    | nil => simp
    | cons h t => simp [tailCR]
  | case4 a d rest ih =>
    have e : tailCR ((a :: d :: rest) ++ y) = tailCR ((d :: rest) ++ y) := rfl
    have e2 : tailCR (a :: d :: rest) = tailCR (d :: rest) := rfl
    rw [e, e2, ih]

theorem wfCR_tailCR_append (z y : List Char) (h : wfCR (z ++ y) = true) :
    wfCR (tailCR z ++ y) = true := by
  induction z using tailCR.induct with
  | case1 => simpa [tailCR] using h
  | case2 => simpa [tailCR] using h
  | case3 c hc =>
    simp only [tailCR, hc, if_neg, List.nil_append]
    cases y with
    | nil => rfl
    | cons b t =>
      have h2 : wfCR (c :: (b :: t)) = true := h
      rwa [wfCR_cons_ne c (b :: t) hc] at h2
  | case4 a d rest ih =>
    have e2 : tailCR (a :: d :: rest) = tailCR (d :: rest) := rfl
    rw [e2]
    apply ih
    have h2 : wfCR (a :: d :: (rest ++ y)) = true := h
    show wfCR (d :: (rest ++ y)) = true
    cases hw : rest ++ y with
    | nil =>
      by_cases hd : d = '\r' <;> simp [wfCR]
    | cons h1 t1 =>
      rw [hw] at h2
      by_cases ha : a = '\r'
      · subst ha
        rw [wfCR_cons_cr] at h2
        simp only [Bool.and_eq_true, decide_eq_true_eq] at h2
        rw [wfCR_cons_ne d (h1 :: t1) (by simp [h2.1])]
        exact h2.2
      · rwa [wfCR_cons_ne a (d :: h1 :: t1) ha] at h2

theorem eraseCR_append (x y : List Char) :
    eraseCR (x ++ y) = eraseCR x ++ eraseCR y := by
  simp [eraseCR]

theorem eraseCR_eq_self (l : List Char) (h : '\r' ∉ l) : eraseCR l = l := by
  apply List.filter_eq_self.mpr
  intro a ha
  simp only [bne_iff_ne, ne_eq]
  exact fun e => h (e ▸ ha)

theorem not_mem_eraseCR (l : List Char) : '\r' ∉ eraseCR l := by
  intro hm
  have := List.of_mem_filter hm
  simp at this

theorem eraseCR_tailCR (z : List Char) : eraseCR (tailCR z) = [] := by
  rcases tailCR_cases z with h | h <;> simp [h, eraseCR]

theorem normalizeCRLF_eq (z : List Char) (h : wfCR z = true) :
    normalizeCRLF z = eraseCR z ++ tailCR z := by
  induction z using wfCR.induct with
  | case1 => rfl
  | case2 c =>
    by_cases hc : c = '\r' <;> simp [normalizeCRLF, eraseCR, tailCR, hc]
  | case3 d rest ih =>
    rw [wfCR_cons_cr] at h
    simp only [Bool.and_eq_true, decide_eq_true_eq] at h
    obtain ⟨hd, hrest⟩ := h
    subst hd
    have e1 : normalizeCRLF ('\r' :: '\n' :: rest) = '\n' :: normalizeCRLF rest := by
      simp [normalizeCRLF]
    have e2 : eraseCR ('\r' :: '\n' :: rest) = '\n' :: eraseCR rest := by
      simp [eraseCR]
    rw [e1, ih hrest, e2]
    cases rest with
    | nil => simp [tailCR, eraseCR]
    | cons r rs =>
      have e3 : tailCR ('\r' :: '\n' :: r :: rs) = tailCR (r :: rs) := rfl
      rw [e3]
      simp
  | case4 c d rest hc ih =>
    have h2 : wfCR (d :: rest) = true := by rwa [wfCR_cons_ne c _ hc] at h
    have e1 : normalizeCRLF (c :: d :: rest) = c :: normalizeCRLF (d :: rest) := by
      have hnc : ¬(c = '\r' ∧ d = '\n') := fun hh => hc hh.1
      simp [normalizeCRLF, hnc]
    have e2 : eraseCR (c :: d :: rest) = c :: eraseCR (d :: rest) := by
      simp [eraseCR, hc]
    have e3 : tailCR (c :: d :: rest) = tailCR (d :: rest) := rfl
    rw [e1, ih h2, e2, e3]
    simp

theorem normalizeCRLF_append_noCR (x y : List Char) (h : '\r' ∉ x) :
    normalizeCRLF (x ++ y) = x ++ normalizeCRLF y := by
  induction x with
  | nil => rfl
  | cons a x ih =>
    have ha : a ≠ '\r' := fun e => h (by simp [e])
    have hx : '\r' ∉ x := fun e => h (by simp [e])
    show normalizeCRLF (a :: (x ++ y)) = (a :: x) ++ normalizeCRLF y
    cases hxy : x ++ y with
    | nil =>
      have hx0 : x = [] := (List.append_eq_nil.mp hxy).1
      have hy0 : y = [] := (List.append_eq_nil.mp hxy).2
      subst hx0; subst hy0
      rfl
    | cons b t =>
      have hab : ¬(a = '\r' ∧ b = '\n') := fun hh => ha hh.1
      have e : normalizeCRLF (a :: b :: t) = a :: normalizeCRLF (b :: t) := by
        simp [normalizeCRLF, hab]
      rw [e, ← hxy, ih hx]
      rfl

/-! ### Structural lemmas about frame extraction -/

theorem extractAux_of_noBlank (acc w : List Char)
    (h : noBlank (acc.reverse ++ w) = true) :
    extractAux acc w = ([], acc.reverse ++ w) := by
  induction acc, w using extractAux.induct with
  | case1 acc => simp [extractAux]
  | case2 acc c => simp [extractAux]
  | case3 acc c d rest hcd ih =>
    obtain ⟨hc, hd⟩ := hcd
    subst hc; subst hd
    simp [noBlank_adj] at h
  | case4 acc c d rest hcd ih =>
    have hl : (c :: acc).reverse ++ (d :: rest) = acc.reverse ++ (c :: d :: rest) := by
      simp
    have e : extractAux acc (c :: d :: rest) = extractAux (c :: acc) (d :: rest) := by
      simp [extractAux, hcd]
    rw [e, ih (by rw [hl]; exact h), hl]

theorem extractAux_snoc (acc w : List Char) (r : Char) (hr : r ≠ '\n') :
    extractAux acc (w ++ [r]) = ((extractAux acc w).1, (extractAux acc w).2 ++ [r]) := by
  induction acc, w using extractAux.induct with
  | case1 acc => simp [extractAux]
  | case2 acc c =>
    have hcr : ¬(c = '\n' ∧ r = '\n') := fun hh => hr hh.2
    show extractAux acc (c :: [r]) = _
    rw [show extractAux acc (c :: r :: []) = extractAux (c :: acc) [r] from by
      simp [extractAux, hcr]]
    simp [extractAux]
  | case3 acc c d rest hcd ih =>
    obtain ⟨hc, hd⟩ := hcd
    subst hc; subst hd
    have e1 : extractAux acc (('\n' :: '\n' :: rest) ++ [r]) =
        (acc.reverse :: (extractAux [] (rest ++ [r])).1,
         (extractAux [] (rest ++ [r])).2) := by
      simp [extractAux]
    have e2 : extractAux acc ('\n' :: '\n' :: rest) =
        (acc.reverse :: (extractAux [] rest).1, (extractAux [] rest).2) := by
      simp [extractAux]
    rw [e1, ih, e2]
  | case4 acc c d rest hcd ih =>
    have e1 : extractAux acc ((c :: d :: rest) ++ [r]) =
        extractAux (c :: acc) ((d :: rest) ++ [r]) := by
      simp [extractAux, hcd]
    have e2 : extractAux acc (c :: d :: rest) = extractAux (c :: acc) (d :: rest) := by
      simp [extractAux, hcd]
    rw [e1, ih, e2]

theorem extractAux_leftover_noBlank (acc w : List Char)
    (h1 : noBlank acc.reverse = true)
    (h2 : acc.head? = some '\n' → w.head? ≠ some '\n') :
    noBlank (extractAux acc w).2 = true := by
  induction acc, w using extractAux.induct with
  | case1 acc => simpa [extractAux] using h1
  | case2 acc c =>
    have hsnoc : noBlank (acc.reverse ++ [c]) = true := by
      apply noBlank_snoc _ _ h1
      intro hl
      have hh : acc.head? = some '\n' := by rwa [List.getLast?_reverse] at hl
      exact fun e => (h2 hh) (by simp [e])
    simpa [extractAux] using hsnoc
  | case3 acc c d rest hcd ih =>
    have e : extractAux acc (c :: d :: rest) =
        (acc.reverse :: (extractAux [] rest).1, (extractAux [] rest).2) := by
      simp [extractAux, hcd.1, hcd.2]
    rw [e]
    exact ih (by simp [noBlank]) (by simp)
  | case4 acc c d rest hcd ih =>
    have e : extractAux acc (c :: d :: rest) = extractAux (c :: acc) (d :: rest) := by
      simp [extractAux, hcd]
    rw [e]
    apply ih
    · rw [List.reverse_cons]
      apply noBlank_snoc _ _ h1
      intro hl
      have hh : acc.head? = some '\n' := by rwa [List.getLast?_reverse] at hl
      exact fun e2' => (h2 hh) (by simp [e2'])
    · intro hc hd
      simp only [List.head?_cons, Option.some.injEq] at hc hd
      exact hcd ⟨hc, hd⟩

theorem extractAux_leftover_nCR (acc w : List Char)
    (h1 : '\r' ∉ acc) (h2 : '\r' ∉ w) :
    '\r' ∉ (extractAux acc w).2 := by
  induction acc, w using extractAux.induct with
  | case1 acc => simpa [extractAux] using h1
  | case2 acc c =>
    intro hm
    simp only [extractAux, List.mem_reverse, List.mem_cons] at hm
    rcases hm with e | hm
    · exact h2 (by simp only [List.mem_singleton]; exact e)
    · exact h1 hm
  | case3 acc c d rest hcd ih =>
    have e : extractAux acc (c :: d :: rest) =
        (acc.reverse :: (extractAux [] rest).1, (extractAux [] rest).2) := by
      simp [extractAux, hcd.1, hcd.2]
    rw [e]
    exact ih (by simp) (fun hm => h2 (by simp [hm]))
  | case4 acc c d rest hcd ih =>
    have e : extractAux acc (c :: d :: rest) = extractAux (c :: acc) (d :: rest) := by
      simp [extractAux, hcd]
    rw [e]
    apply ih
    · intro hm
      rcases List.mem_cons.mp hm with e2' | hm2
      · exact h2 (by rw [e2']; exact List.mem_cons_self _ _)
      · exact h1 hm2
    · intro hm
      exact h2 (by simp [hm])

theorem extractAux_rescan (w acc0 z : List Char)
    (h1 : noBlank (acc0.reverse ++ w) = true)
    (h2 : (acc0.reverse ++ w).getLast? = some '\n' → z.head? ≠ some '\n') :
    extractAux acc0 (w ++ z) = extractAux (w.reverse ++ acc0) z := by
  induction w generalizing acc0 with
  | nil => simp
  | cons a w' ih =>
    show extractAux acc0 (a :: (w' ++ z)) = _
    cases hwz : w' ++ z with
    | nil =>
      have hw0 : w' = [] := (List.append_eq_nil.mp hwz).1
      have hz0 : z = [] := (List.append_eq_nil.mp hwz).2
      subst hw0; subst hz0
      simp [extractAux]
    | cons b t =>
      by_cases hab : a = '\n' ∧ b = '\n'
      · exfalso
        cases hw' : w' with
        | nil =>
          subst hw'
          simp only [List.nil_append] at hwz
          have hlast : (acc0.reverse ++ [a]).getLast? = some '\n' := by
            simp [hab.1]
          exact h2 hlast (by rw [hwz]; simp [hab.2])
        | cons c w'' =>
          have hb : c = b := by
            rw [hw'] at hwz
            exact (List.cons.injEq _ _ _ _ ▸ hwz).1
          rw [hw', hab.1, hb, hab.2] at h1
          have : noBlank (acc0.reverse ++ '\n' :: '\n' :: w'') = false :=
            noBlank_adj _ _
          rw [this] at h1
          exact Bool.false_ne_true h1
      · have e1 : extractAux acc0 (a :: b :: t) = extractAux (a :: acc0) (b :: t) := by
          simp [extractAux, hab]
        rw [e1, ← hwz]
        have hlist : (a :: acc0).reverse ++ w' = acc0.reverse ++ (a :: w') := by simp
        have h1' : noBlank ((a :: acc0).reverse ++ w') = true := by
          rw [hlist]; exact h1
        have h2' : ((a :: acc0).reverse ++ w').getLast? = some '\n' →
            z.head? ≠ some '\n' := by
          rw [hlist]; exact h2
        rw [ih (a :: acc0) h1' h2']
        simp

theorem extractAux_boundary (u acc z' : List Char)
    (h : noBlank (acc.reverse ++ u ++ ['\n']) = true) :
    extractAux acc (u ++ '\n' :: '\n' :: z') =
      ((acc.reverse ++ u) :: (extractAux [] z').1, (extractAux [] z').2) := by
  induction u generalizing acc with
  | nil => simp [extractAux]
  | cons a u' ih =>
    show extractAux acc (a :: (u' ++ '\n' :: '\n' :: z')) = _
    cases hu' : u' with
    | nil =>
      subst hu'
      by_cases ha : a = '\n'
      · exfalso
        subst ha
        have : noBlank (acc.reverse ++ '\n' :: '\n' :: []) = false := noBlank_adj _ _
        rw [show acc.reverse ++ ['\n'] ++ ['\n'] = acc.reverse ++ '\n' :: '\n' :: []
          from by simp] at h
        rw [this] at h
        exact Bool.false_ne_true h
      · have e1 : extractAux acc (a :: '\n' :: '\n' :: z') =
            extractAux (a :: acc) ('\n' :: '\n' :: z') := by
          simp [extractAux, ha]
        have e2 : extractAux (a :: acc) ('\n' :: '\n' :: z') =
            ((a :: acc).reverse :: (extractAux [] z').1, (extractAux [] z').2) := by
          simp [extractAux]
        simp only [List.nil_append]
        rw [e1, e2]
        simp
    | cons b u'' =>
      by_cases hab : a = '\n' ∧ b = '\n'
      · exfalso
        rw [hu', hab.1, hab.2] at h
        have : acc.reverse ++ '\n' :: '\n' :: u'' ++ ['\n'] =
            acc.reverse ++ '\n' :: '\n' :: (u'' ++ ['\n']) := by simp
        rw [this, noBlank_adj] at h
        exact Bool.false_ne_true h
      · rw [← hu']
        have e1 : extractAux acc (a :: (u' ++ '\n' :: '\n' :: z')) =
            extractAux (a :: acc) (u' ++ '\n' :: '\n' :: z') := by
          rw [hu']
          show extractAux acc (a :: b :: (u'' ++ '\n' :: '\n' :: z')) = _
          simp [extractAux, hab]
        rw [e1]
        have h' : noBlank ((a :: acc).reverse ++ u' ++ ['\n']) = true := by
          rw [show (a :: acc).reverse ++ u' ++ ['\n'] =
            acc.reverse ++ (a :: u') ++ ['\n'] from by simp]
          exact h
        rw [ih (a :: acc) h']
        simp

theorem extractAux_append (acc X : List Char) (Y : List Char)
    (h1 : noBlank acc.reverse = true)
    (h2 : acc.head? = some '\n' → (X ++ Y).head? ≠ some '\n') :
    extractAux acc (X ++ Y) =
      ((extractAux acc X).1 ++ (extractAux [] ((extractAux acc X).2 ++ Y)).1,
       (extractAux [] ((extractAux acc X).2 ++ Y)).2) := by
  induction acc, X using extractAux.induct with
  | case1 acc =>
    have h2' : acc.reverse.getLast? = some '\n' → Y.head? ≠ some '\n' := by
      rw [List.getLast?_reverse]
      intro hl
      exact h2 hl
    have hr := extractAux_rescan acc.reverse [] Y (by simpa using h1)
      (by simpa using h2')
    simp only [List.reverse_reverse, List.append_nil] at hr
    have e0 : extractAux acc [] = (([] : List (List Char)), acc.reverse) := by
      simp [extractAux]
    show extractAux acc ([] ++ Y) = _
    rw [e0]
    simp only [List.nil_append]
    rw [hr]
  | case2 acc c =>
    have hnb : noBlank (acc.reverse ++ [c]) = true := by
      apply noBlank_snoc _ _ h1
      intro hl
      have hh : acc.head? = some '\n' := by rwa [List.getLast?_reverse] at hl
      intro hc
      exact h2 hh (by simp [hc])
    have e0 : extractAux acc [c] = (([] : List (List Char)), (c :: acc).reverse) := by
      simp [extractAux]
    cases Y with
    | nil =>
      have eid := extractAux_of_noBlank [] ((c :: acc).reverse)
        (by simpa using hnb)
      show extractAux acc ([c] ++ []) = _
      rw [e0]
      simp only [List.append_nil]
      rw [e0, eid]
      simp
    | cons b Y' =>
      by_cases hcb : c = '\n' ∧ b = '\n'
      · obtain ⟨hc, hb⟩ := hcb
        subst hc; subst hb
        have eL : extractAux acc ('\n' :: '\n' :: Y') =
            (acc.reverse :: (extractAux [] Y').1, (extractAux [] Y').2) := by
          simp [extractAux]
        have hB := extractAux_boundary acc.reverse [] Y'
          (by simpa using hnb)
        simp only [List.reverse_nil, List.nil_append] at hB
        show extractAux acc ('\n' :: '\n' :: Y') = _
        rw [eL, e0]
        rw [show ('\n' :: acc).reverse ++ '\n' :: Y' =
          acc.reverse ++ '\n' :: '\n' :: Y' from by simp]
        rw [hB]
        simp
      · have eL : extractAux acc (c :: b :: Y') = extractAux (c :: acc) (b :: Y') := by
          simp [extractAux, hcb]
        have hr := extractAux_rescan ((c :: acc).reverse) [] (b :: Y')
          (by simpa using hnb)
          (by
            simp only [List.reverse_nil, List.nil_append, List.getLast?_reverse]
            intro hl hb2
            simp only [List.head?_cons, Option.some.injEq] at hl hb2
            exact hcb ⟨hl, hb2⟩)
        simp only [List.reverse_reverse, List.append_nil] at hr
        show extractAux acc (c :: b :: Y') = _
        rw [eL, e0, hr]
        simp
  | case3 acc c d rest hcd ih =>
    obtain ⟨hc, hd⟩ := hcd
    subst hc; subst hd
    have eL : extractAux acc ('\n' :: '\n' :: (rest ++ Y)) =
        (acc.reverse :: (extractAux [] (rest ++ Y)).1,
         (extractAux [] (rest ++ Y)).2) := by
      simp [extractAux]
    have eR : extractAux acc ('\n' :: '\n' :: rest) =
        (acc.reverse :: (extractAux [] rest).1, (extractAux [] rest).2) := by
      simp [extractAux]
    have ihh := ih (by simp [noBlank]) (by simp)
    show extractAux acc ('\n' :: '\n' :: (rest ++ Y)) = _
    rw [eL, eR, ihh]
    simp
  | case4 acc c d rest hcd ih =>
    have eL : extractAux acc (c :: d :: (rest ++ Y)) =
        extractAux (c :: acc) (d :: (rest ++ Y)) := by
      simp [extractAux, hcd]
    have eR : extractAux acc (c :: d :: rest) = extractAux (c :: acc) (d :: rest) := by
      simp [extractAux, hcd]
    have h1' : noBlank (c :: acc).reverse = true := by
      rw [List.reverse_cons]
      apply noBlank_snoc _ _ h1
      intro hl
      have hh : acc.head? = some '\n' := by rwa [List.getLast?_reverse] at hl
      intro hc
      exact h2 hh (by simp [hc])
    have h2' : (c :: acc).head? = some '\n' →
        ((d :: rest) ++ Y).head? ≠ some '\n' := by
      intro hcn hdn
      simp only [List.head?_cons, Option.some.injEq] at hcn
      simp only [List.cons_append, List.head?_cons, Option.some.injEq] at hdn
      exact hcd ⟨hcn, hdn⟩
    have ihh := ih h1' h2'
    show extractAux acc (c :: d :: (rest ++ Y)) = _
    rw [eL, eR]
    exact ihh

theorem extractFrames_append (X Y : List Char) :
    extractFrames (X ++ Y) =
      ((extractFrames X).1 ++ (extractFrames ((extractFrames X).2 ++ Y)).1,
       (extractFrames ((extractFrames X).2 ++ Y)).2) := by
  have h := extractAux_append [] X Y (by simp [noBlank]) (by simp)
  simpa [extractFrames] using h

theorem joinL_append (xs ys : List (List Char)) :
    joinL (xs ++ ys) = joinL xs ++ joinL ys := by
  induction xs with
  | nil => rfl
  | cons c xs ih => simp [joinL, ih]

theorem joinL_singleton (s : List Char) : joinL [s] = s := by
  simp [joinL]

/-- Characterization of the read loop: starting from a buffer made of a
blank-free, CR-free core and an optional pending CR, feeding any chunk
list whose text keeps every CR before an LF produces exactly the frames
of a single extraction pass over the CR-erased total text, leaving the
extraction leftover plus the pending trailing CR in the buffer. -/
theorem runChunks_spec (cs : List (List Char)) : ∀ (B t : List Char),
    noBlank B = true → '\r' ∉ B → (t = [] ∨ t = ['\r']) →
    wfCR (t ++ joinL cs) = true →
    runChunks (B ++ t) cs =
      ((extractFrames (B ++ eraseCR (t ++ joinL cs))).1,
       (extractFrames (B ++ eraseCR (t ++ joinL cs))).2 ++ tailCR (t ++ joinL cs)) := by
  induction cs with
  | nil =>
    intro B t hB1 hB2 ht hwf
    have hid : extractFrames B = ([], B) :=
      extractAux_of_noBlank [] B (by simpa using hB1)
    rcases ht with h | h <;> subst h <;>
      simp [runChunks, joinL, eraseCR, tailCR, extractFrames] at hid ⊢ <;>
      simp [hid]
  | cons c cs' ih =>
    intro B t hB1 hB2 ht hwf
    have hjoin : t ++ joinL (c :: cs') = (t ++ c) ++ joinL cs' := by
      simp [joinL]
    have hwf' : wfCR ((t ++ c) ++ joinL cs') = true := by rwa [hjoin] at hwf
    have hwf_tc : wfCR (t ++ c) = true := wfCR_append_left _ _ hwf'
    have hnorm : normalizeCRLF ((B ++ t) ++ c) =
        B ++ (eraseCR (t ++ c) ++ tailCR (t ++ c)) := by
      rw [show (B ++ t) ++ c = B ++ (t ++ c) from by simp]
      rw [normalizeCRLF_append_noCR _ _ hB2, normalizeCRLF_eq _ hwf_tc]
    have hstep : extractFrames (normalizeCRLF ((B ++ t) ++ c)) =
        ((extractFrames (B ++ eraseCR (t ++ c))).1,
         (extractFrames (B ++ eraseCR (t ++ c))).2 ++ tailCR (t ++ c)) := by
      rw [hnorm]
      rcases tailCR_cases (t ++ c) with h | h
      · rw [h]
        simp
      · rw [h]
        rw [show B ++ (eraseCR (t ++ c) ++ ['\r']) =
          (B ++ eraseCR (t ++ c)) ++ ['\r'] from by simp]
        exact extractAux_snoc [] _ '\r' (by decide)
    have hB1nb : noBlank (extractFrames (B ++ eraseCR (t ++ c))).2 = true :=
      extractAux_leftover_noBlank [] _ (by simp [noBlank]) (by simp)
    have hB1cr : '\r' ∉ (extractFrames (B ++ eraseCR (t ++ c))).2 := by
      apply extractAux_leftover_nCR [] _ (by simp)
      intro hm
      rcases List.mem_append.mp hm with hm | hm
      · exact hB2 hm
      · exact not_mem_eraseCR _ hm
    have hwf'' : wfCR (tailCR (t ++ c) ++ joinL cs') = true :=
      wfCR_tailCR_append _ _ hwf'
    have hIH := ih (extractFrames (B ++ eraseCR (t ++ c))).2 (tailCR (t ++ c))
      hB1nb hB1cr (tailCR_cases _) hwf''
    have herase : eraseCR (tailCR (t ++ c) ++ joinL cs') = eraseCR (joinL cs') := by
      rw [eraseCR_append, eraseCR_tailCR]
      simp
    have hEXT := extractFrames_append (B ++ eraseCR (t ++ c)) (eraseCR (joinL cs'))
    have hXY : (B ++ eraseCR (t ++ c)) ++ eraseCR (joinL cs') =
        B ++ eraseCR ((t ++ c) ++ joinL cs') := by
      rw [eraseCR_append (t ++ c) (joinL cs'), List.append_assoc]
    have htail2 : tailCR (tailCR (t ++ c) ++ joinL cs') =
        tailCR ((t ++ c) ++ joinL cs') := by
      by_cases hj : joinL cs' = []
      · rw [hj]
        simp only [List.append_nil]
        rcases tailCR_cases (t ++ c) with h | h <;> rw [h] <;> simp [tailCR, h]
      · rw [tailCR_append _ _, tailCR_append (t ++ c) _, if_neg hj, if_neg hj]
    show ((extractFrames (normalizeCRLF ((B ++ t) ++ c))).1 ++
           (runChunks (extractFrames (normalizeCRLF ((B ++ t) ++ c))).2 cs').1,
          (runChunks (extractFrames (normalizeCRLF ((B ++ t) ++ c))).2 cs').2) = _
    rw [hstep]
    simp only []
    rw [hIH, herase, hjoin, ← hXY, hEXT, htail2]

/-- Decoding a chunk list equals decoding its concatenation in one chunk,
for any delivered text keeping each CR before an LF. -/
theorem decodeStream_single (cs : List (List Char))
    (hwf : wfCR (joinL cs) = true) :
    decodeStream cs = decodeStream [joinL cs] := by
  have h1 := runChunks_spec cs [] [] (by rfl) (by simp) (Or.inl rfl)
    (by simpa using hwf)
  have h2 := runChunks_spec [joinL cs] [] [] (by rfl) (by simp) (Or.inl rfl)
    (by simpa [joinL] using hwf)
  unfold decodeStream
  rw [show ([] : List Char) ++ [] = [] from rfl] at h1 h2
  rw [h1, h2]
  simp [joinL]

/-! ### Valid event-stream texts

A valid multi-frame event-stream text is the serialization of a list of
frames; each frame is a list of field lines, each line choosing an LF or
CRLF ending, and each frame is closed by an additional empty line (the
blank-line separator), again with either ending.  Line contents carry no
LF and no CR. -/

/-- Line ending chosen for one serialized line. -/
def lineEnd (crlf : Bool) : List Char := if crlf then ['\r', '\n'] else ['\n']

/-- One serialized field line: its content followed by its ending. -/
def serializeLine (l : List Char × Bool) : List Char := l.1 ++ lineEnd l.2

/-- One serialized frame: its lines followed by the empty line closing it. -/
def serializeFrame (f : List (List Char × Bool)) (term : Bool) : List Char :=
  joinL (f.map serializeLine) ++ lineEnd term

/-- A serialized stream: the concatenation of its serialized frames. -/
def serializeStream (s : List (List (List Char × Bool) × Bool)) : List Char :=
  joinL (s.map fun fr => serializeFrame fr.1 fr.2)

/-- Validity of a line content: no LF, no CR inside. -/
def validLine (l : List Char × Bool) : Bool :=
  l.1.all fun c => !(c = '\n' : Bool) && !(c = '\r' : Bool)

/-- Validity of a whole stream: every line of every frame is valid. -/
def validStream (s : List (List (List Char × Bool) × Bool)) : Bool :=
  s.all fun fr => fr.1.all validLine

theorem wfCR_noCR_append (x y : List Char) (hx : '\r' ∉ x)
    (hy : wfCR y = true) : wfCR (x ++ y) = true := by
  induction x with
  | nil => simpa using hy
  | cons a x ih =>
    have ha : a ≠ '\r' := fun e => hx (by simp [e])
    show wfCR (a :: (x ++ y)) = true
    rw [wfCR_cons_ne a _ ha]
    exact ih fun e => hx (by simp [e])

theorem wfCR_crlf (z : List Char) : wfCR ('\r' :: '\n' :: z) = wfCR z := by
  rw [wfCR_cons_cr]
  simp

theorem wfCR_serializeLines (ls : List (List Char × Bool)) (rest : List Char)
    (hv : ls.all validLine = true) (hr : wfCR rest = true) :
    wfCR (joinL (ls.map serializeLine) ++ rest) = true := by
  induction ls with
  | nil => simpa [joinL] using hr
  | cons l ls ih =>
    simp only [List.all_cons, Bool.and_eq_true] at hv
    have hnc : '\r' ∉ l.1 := by
      intro hm
      have := List.all_eq_true.mp hv.1 _ hm
      simp at this
    have htail : wfCR (joinL (ls.map serializeLine) ++ rest) = true := ih hv.2
    show wfCR ((serializeLine l ++ joinL (ls.map serializeLine)) ++ rest) = true
    rw [List.append_assoc]
    unfold serializeLine
    rw [List.append_assoc]
    apply wfCR_noCR_append _ _ hnc
    unfold lineEnd
    by_cases hb : l.2
    · rw [if_pos hb]
      show wfCR ('\r' :: '\n' :: (joinL (ls.map serializeLine) ++ rest)) = true
      rw [wfCR_crlf]
      exact htail
    · rw [if_neg hb]
      show wfCR ('\n' :: (joinL (ls.map serializeLine) ++ rest)) = true
      rw [wfCR_cons_ne _ _ (by decide)]
      exact htail

theorem wfCR_serializeStream_append (s : List (List (List Char × Bool) × Bool))
    (rest : List Char) (hv : validStream s = true) (hr : wfCR rest = true) :
    wfCR (serializeStream s ++ rest) = true := by
  induction s with
  | nil => simpa [serializeStream, joinL] using hr
  | cons fr s ih =>
    simp only [validStream, List.all_cons, Bool.and_eq_true] at hv
    have htail : wfCR (serializeStream s ++ rest) = true := by
      apply ih
      simp only [validStream]
      exact hv.2
    show wfCR ((serializeFrame fr.1 fr.2 ++ serializeStream s) ++ rest) = true
    rw [List.append_assoc]
    unfold serializeFrame
    rw [List.append_assoc]
    apply wfCR_serializeLines _ _ hv.1
    unfold lineEnd
    by_cases hb : fr.2
    · rw [if_pos hb]
      show wfCR ('\r' :: '\n' :: (serializeStream s ++ rest)) = true
      rw [wfCR_crlf]
      exact htail
    · rw [if_neg hb]
      show wfCR ('\n' :: (serializeStream s ++ rest)) = true
      rw [wfCR_cons_ne _ _ (by decide)]
      exact htail

theorem validStream_wfCR (s : List (List (List Char × Bool) × Bool))
    (hv : validStream s = true) : wfCR (serializeStream s) = true := by
  have h := wfCR_serializeStream_append s [] hv rfl
  rwa [List.append_nil] at h

/-- C1.  For every valid multi-frame event-stream text sequence (the
serialization of a frame list with per-line LF or CRLF endings) and every
way of splitting it into chunks — including splits inside a field name,
inside a data value, inside a CRLF, or exactly at a blank-line boundary —
feeding the chunks to the frame decoder one at a time emits the same
ordered sequence of (event type, data) frames as delivering the whole
text in a single chunk; moreover after any number k of chunks the frames
emitted so far are exactly those of a single-chunk delivery of the
consumed prefix, so no frame is emitted before its terminating blank line
has been consumed and no partial trailing frame is lost across chunk
boundaries. -/
theorem C1_frame_decoder_chunk_invariance
    (s : List (List (List Char × Bool) × Bool)) (cs : List (List Char))
    (hv : validStream s = true) (hjoin : joinL cs = serializeStream s) :
    decodeStream cs = decodeStream [joinL cs] ∧
      ∀ k, decodeStream (cs.take k) = decodeStream [joinL (cs.take k)] := by
  have hwf : wfCR (joinL cs) = true := by
    rw [hjoin]
    exact validStream_wfCR s hv
  refine ⟨decodeStream_single cs hwf, fun k => ?_⟩
  apply decodeStream_single
  have hsplit : joinL cs = joinL (cs.take k) ++ joinL (cs.drop k) := by
    rw [← joinL_append, List.take_append_drop]
  exact wfCR_append_left _ _ (hsplit ▸ hwf)

/-- Witness for C1: a two-frame stream mixing LF and CRLF endings, split
into chunks that cut a field name, a data value, a CRLF pair and a
blank-line boundary. -/
theorem C1_frame_decoder_chunk_invariance_witness :
    validStream [([("event: task".data, true), ("data: x1".data, false)], false),
                 ([("data: a".data, false), ("data: b".data, true)], true)] = true ∧
    joinL ["even".data, "t: task\r".data, "\ndata: x1\n\nda".data,
           "ta: a\ndata: b\r\n\r".data, "\n".data] =
      serializeStream
        [([("event: task".data, true), ("data: x1".data, false)], false),
         ([("data: a".data, false), ("data: b".data, true)], true)] ∧
    decodeStream ["even".data, "t: task\r".data, "\ndata: x1\n\nda".data,
                  "ta: a\ndata: b\r\n\r".data, "\n".data] =
      decodeStream [joinL ["even".data, "t: task\r".data, "\ndata: x1\n\nda".data,
                           "ta: a\ndata: b\r\n\r".data, "\n".data]] := by
  refine ⟨by decide, by decide, ?_⟩
  exact (C1_frame_decoder_chunk_invariance
    [([("event: task".data, true), ("data: x1".data, false)], false),
     ([("data: a".data, false), ("data: b".data, true)], true)]
    ["even".data, "t: task\r".data, "\ndata: x1\n\nda".data,
     "ta: a\ndata: b\r\n\r".data, "\n".data]
    (by decide) (by decide)).1

/-! ## Update Reconciler

Embedding of the task and comment snapshots and of the two state
updaters run on a decoded task-stream payload.  The TypeScript types
declare the identity as a required string; every other field of a
runtime payload is an unchecked JSON cast, so presence or absence of a
key is observable through the object spread — an absent key is modelled
as none. -/

/-- Task snapshot as held in the working set or carried by a payload. -/
structure Task where
  id : String
  title : Option String := none
  description : Option String := none
  status : Option String := none
  priority : Option String := none
  due_at : Option String := none
  assigned_agent_id : Option String := none
  created_at : Option String := none
  updated_at : Option String := none
deriving DecidableEq, Repr

/-- Comment snapshot carried by a payload or stored for the open task. -/
structure TaskComment where
  id : String
  message : Option String := none
  agent_id : Option String := none
  task_id : Option String := none
  created_at : String := ""
deriving DecidableEq, Repr

/-- Parsed payload of an event-task frame. -/
structure StreamPayload where
  type : Option String := none
  task : Option Task := none
  comment : Option TaskComment := none

/-- One field of the object-spread merge: a key present on the incoming
payload wins, an absent key keeps the stored value. -/
def mergeField (incoming old : Option String) : Option String :=
  match incoming with
  | some v => some v
  | none => old

/-- Embedding of the object spread of the incoming task over the stored
one. -/
def mergeTask (old incoming : Task) : Task where
  id := incoming.id
  title := mergeField incoming.title old.title
  description := mergeField incoming.description old.description
  status := mergeField incoming.status old.status
  priority := mergeField incoming.priority old.priority
  due_at := mergeField incoming.due_at old.due_at
  assigned_agent_id := mergeField incoming.assigned_agent_id old.assigned_agent_id
  created_at := mergeField incoming.created_at old.created_at
  updated_at := mergeField incoming.updated_at old.updated_at

/-- Embedding of the setTasks updater: find the first stored task with the
incoming id; if none, prepend the incoming task, otherwise replace the
found entry in place by the merge. -/
def upsertTask (tasks : List Task) (incoming : Task) : List Task :=
  match tasks.findIdx? (fun item => item.id == incoming.id) with
  | none => incoming :: tasks
  | some i => tasks.set i (mergeTask (tasks.getD i incoming) incoming)

/-- Embedding of the setComments updater: keep the collection unless the
comment belongs to the currently open task; drop a comment whose id is
already stored; otherwise append it. -/
def applyComment (selectedId : Option String) (prev : List TaskComment)
    (c : TaskComment) : List TaskComment :=
  if selectedId ≠ c.task_id then prev
  else if prev.any fun item => item.id == c.id then prev
  else prev ++ [c]

/-- Truthiness of an optional string as in JS: an absent value and the
empty string are falsy. -/
def truthy : Option String → Bool
  | none => false
  | some s => !(s = "" : Bool)

/-- Embedding of the frame dispatch on a parsed payload: a comment update
(type task.comment and a truthy comment task id) goes to the comment
updater, otherwise a present task goes to the task upserter, anything
else leaves both collections unchanged. -/
def handlePayload (selectedId : Option String) (comments : List TaskComment)
    (tasks : List Task) (p : StreamPayload) :
    List TaskComment × List Task :=
  match p.comment with
  | some c =>
    if truthy c.task_id && (p.type == some "task.comment") then
      (applyComment selectedId comments c, tasks)
    else
      match p.task with
      | some tk => (comments, upsertTask tasks tk)
      | none => (comments, tasks)
  | none =>
    match p.task with
    | some tk => (comments, upsertTask tasks tk)
    | none => (comments, tasks)

theorem upsertTask_not_found (tasks : List Task) (inc : Task)
    (h : ∀ item ∈ tasks, item.id ≠ inc.id) :
    upsertTask tasks inc = inc :: tasks := by
  unfold upsertTask
  rw [List.findIdx?_eq_none_iff.mpr fun x hx => beq_eq_false_iff_ne.mpr (h x hx)]

theorem upsertTask_found (pre post : List Task) (old inc : Task)
    (hpre : ∀ item ∈ pre, item.id ≠ inc.id) (hold : old.id = inc.id) :
    upsertTask (pre ++ old :: post) inc = pre ++ mergeTask old inc :: post := by
  induction pre with
  | nil =>
    unfold upsertTask
    rw [List.nil_append, List.findIdx?_cons, if_pos (by simp [hold])]
    simp
  | cons a pre ih =>
    have ha : (a.id == inc.id) = false :=
      beq_eq_false_iff_ne.mpr (hpre a (by simp))
    have ih' := ih fun item hm => hpre item (by simp [hm])
    unfold upsertTask at ih' ⊢
    rw [List.cons_append, List.findIdx?_cons, if_neg (by simp [ha]),
      List.findIdx?_succ]
    cases hf : List.findIdx? (fun item => item.id == inc.id) (pre ++ old :: post) with
    | none =>
      exfalso
      have := List.findIdx?_eq_none_iff.mp hf old (by simp)
      simp [hold] at this
    | some i =>
      rw [hf] at ih'
      have ih'' : (pre ++ old :: post).set i
          (mergeTask ((pre ++ old :: post).getD i inc) inc) =
          pre ++ mergeTask old inc :: post := ih'
      simp only [Option.map_some']
      simp only [List.set_cons_succ, List.getD_cons_succ]
      rw [ih'']
      rfl

/-- C2.  For every working set and every incoming task payload: an unseen
id is inserted exactly once at the front with every other entry
unchanged; a seen id is merged in place at its existing position, and
every field absent from the incoming payload is left untouched; in
particular a task created with status inbox that receives a status-only
update to in_progress keeps its title. -/
theorem C2_task_upsert_reconciler (tasks pre post : List Task) (inc old : Task) :
    ((∀ item ∈ tasks, item.id ≠ inc.id) → upsertTask tasks inc = inc :: tasks) ∧
    ((∀ item ∈ pre, item.id ≠ inc.id) → old.id = inc.id →
      upsertTask (pre ++ old :: post) inc = pre ++ mergeTask old inc :: post) ∧
    (∀ o i : Task,
      (i.title = none → (mergeTask o i).title = o.title) ∧
      (i.description = none → (mergeTask o i).description = o.description) ∧
      (i.status = none → (mergeTask o i).status = o.status) ∧
      (i.priority = none → (mergeTask o i).priority = o.priority) ∧
      (i.due_at = none → (mergeTask o i).due_at = o.due_at) ∧
      (i.assigned_agent_id = none →
        (mergeTask o i).assigned_agent_id = o.assigned_agent_id) ∧
      (i.created_at = none → (mergeTask o i).created_at = o.created_at) ∧
      (i.updated_at = none → (mergeTask o i).updated_at = o.updated_at)) ∧
    upsertTask
        (upsertTask []
          { id := "T1", title := some "Fix bug", status := some "inbox",
            priority := some "medium" })
        { id := "T1", status := some "in_progress" } =
      [{ id := "T1", title := some "Fix bug", status := some "in_progress",
         priority := some "medium" }] := by
  refine ⟨upsertTask_not_found tasks inc, upsertTask_found pre post old inc, ?_, ?_⟩
  · intro o i
    refine ⟨?_, ?_, ?_, ?_, ?_, ?_, ?_, ?_⟩ <;>
      intro h <;> simp [mergeTask, mergeField, h]
  · decide

/-- Witness for C2: a working set holding tasks A and T1; a status-only
payload for T1 updates it in place, keeping its title and position. -/
theorem C2_task_upsert_reconciler_witness :
    upsertTask
        [{ id := "A" }, { id := "T1", title := some "t", status := some "inbox" }]
        { id := "T1", status := some "done" } =
      [{ id := "A" },
       { id := "T1", title := some "t", status := some "done" }] := by
  have h := (C2_task_upsert_reconciler []
      [({ id := "A" } : Task)] ([] : List Task)
      { id := "T1", status := some "done" }
      { id := "T1", title := some "t", status := some "inbox" }).2.1
      (by decide) (by decide)
  exact h.trans (by decide)

/-- C3.  A decoded comment frame (type task.comment with a truthy task
id) is appended to the comment collection exactly when its task id equals
the currently open task id and no stored comment carries the same id; in
every other case the collection and the task list are left unchanged (no
buffering), and delivering the same comment frame twice stores the
comment once. -/
theorem C3_comment_reconciler (selected : Option String)
    (comments : List TaskComment) (tasks : List Task)
    (tk : Option Task) (c : TaskComment) (tid : String)
    (htid : c.task_id = some tid) (hne : tid ≠ "") :
    handlePayload selected comments tasks ⟨some "task.comment", tk, some c⟩ =
      ((if selected = some tid ∧ ∀ item ∈ comments, item.id ≠ c.id
        then comments ++ [c] else comments), tasks) ∧
    applyComment selected (applyComment selected comments c) c =
      applyComment selected comments c := by
  constructor
  · show (if truthy c.task_id && ((some "task.comment" : Option String) ==
        some "task.comment") then (applyComment selected comments c, tasks)
        else _) = _
    rw [show truthy c.task_id = true from by
        rw [htid]; simpa [truthy] using hne]
    rw [show ((some "task.comment" : Option String) == some "task.comment") = true
        from by simp]
    rw [if_pos (show (true && true) = true from rfl)]
    unfold applyComment
    rw [htid]
    by_cases hsel : selected = some tid
    · rw [if_neg (by simp [hsel])]
      by_cases hdup : (comments.any fun item => item.id == c.id) = true
      · have hncond : ¬(selected = some tid ∧ ∀ item ∈ comments, item.id ≠ c.id) := by
          intro hcond
          rcases List.any_eq_true.mp hdup with ⟨item, hm, hp⟩
          exact hcond.2 item hm (by simpa using hp)
        rw [if_pos hdup, if_neg hncond]
      · have hall : ∀ item ∈ comments, item.id ≠ c.id := by
          intro item hm he
          exact hdup (List.any_eq_true.mpr ⟨item, hm, by simpa using he⟩)
        rw [if_neg hdup, if_pos ⟨hsel, hall⟩]
    · rw [if_pos (by simpa using hsel), if_neg fun hcond => hsel hcond.1]
  · unfold applyComment
    by_cases h1 : selected ≠ c.task_id
    · rw [if_pos h1, if_pos h1]
    · rw [if_neg h1]
      by_cases h2 : (comments.any fun item => item.id == c.id) = true
      · rw [if_pos h2, if_neg h1, if_pos h2]
      · rw [if_neg h2, if_neg h1]
        rw [if_pos (show ((comments ++ [c]).any fun item => item.id == c.id) = true
          from by simp)]

/-- Witness for C3: with task T1 open, a fresh comment for T1 is appended
once. -/
theorem C3_comment_reconciler_witness :
    handlePayload (some "T1") [] ([] : List Task)
        ⟨some "task.comment", none,
         some { id := "c1", message := some "hi", task_id := some "T1" }⟩ =
      ([{ id := "c1", message := some "hi", task_id := some "T1" }], []) := by
  have h := (C3_comment_reconciler (some "T1") [] [] none
      { id := "c1", message := some "hi", task_id := some "T1" } "T1"
      rfl (by decide)).1
  exact h.trans (by rw [if_pos ⟨rfl, by simp⟩]; simp)

/-! ## Cursor Tracker

Embedding of latestTaskTimestamp.  Date parsing and ISO serialization
are parameters of the embedding: parseTime returns the epoch
milliseconds of a string, or none for a NaN parse; toISO serializes a
value back.  The fold mirrors the source forEach: the effective value is
updated_at with created_at as fallback, a falsy (missing or empty) value
is skipped, a NaN parse is skipped, and a parsed time replaces the
accumulator only when strictly greater; the final accumulator is
serialized unless it is still the falsy initial 0. -/

/-- One forEach step of latestTaskTimestamp: take updated_at with
created_at as fallback, skip a falsy value, skip a NaN parse, keep the
time only when strictly above the accumulator. -/
def latestStep (parseTime : String → Option Int) (latest : Int) (task : Task) :
    Int :=
  match (match task.updated_at with
         | some v => some v
         | none => task.created_at) with
  | none => latest
  | some v =>
    if v = "" then latest
    else match parseTime v with
      | none => latest
      | some time => if time > latest then time else latest

def latestTaskTimestamp (parseTime : String → Option Int) (toISO : Int → String)
    (items : List Task) : Option String :=
  let latestTime := items.foldl (latestStep parseTime) (0 : Int)
  if latestTime ≠ 0 then some (toISO latestTime) else none

/-- Effective parsed timestamp of one task: updated_at with created_at as
fallback, skipping falsy values and failed parses. -/
def effTime (parseTime : String → Option Int) (task : Task) : Option Int :=
  match (match task.updated_at with
         | some v => some v
         | none => task.created_at) with
  | none => none
  | some v => if v = "" then none else parseTime v

/-- All effective parsed timestamps of a working set. -/
def parsedTimes (parseTime : String → Option Int) (items : List Task) : List Int :=
  items.filterMap (effTime parseTime)

/-- A parse function under which only the epoch instant is parseable, as
the real date parser behaves on the ISO serialization of the epoch. -/
def epochOnlyParse (s : String) : Option Int :=
  if s = "1970-01-01T00:00:00.000Z" then some 0 else none

/-- A serializer constant at the epoch instant. -/
def epochISO (_ : Int) : String := "1970-01-01T00:00:00.000Z"

/-- Counterexample to C8 as stated: a working set whose only task carries
the parseable epoch timestamp has a usable timestamp, yet the tracker
returns none, because the final accumulator 0 is falsy; so the tracker
does not return none exactly when no entity has a usable timestamp, and
does not return the maximum valid timestamp here. -/
theorem C8_latest_cursor_counterexample :
    latestTaskTimestamp epochOnlyParse epochISO
        [{ id := "T1", updated_at := some "1970-01-01T00:00:00.000Z" }] = none ∧
    effTime epochOnlyParse
        { id := "T1", updated_at := some "1970-01-01T00:00:00.000Z" } = some 0 := by
  constructor <;> rfl

theorem latestStep_eq (parseTime : String → Option Int) (latest : Int)
    (t : Task) :
    latestStep parseTime latest t =
      match effTime parseTime t with
      | none => latest
      | some time => if time > latest then time else latest := by
  unfold latestStep effTime
  cases hu : (match t.updated_at with
      | some v => some v
      | none => t.created_at) with
  | none => rfl
  | some v =>
    simp only []
    by_cases hv : v = ""
    · simp [hv]
    · rw [if_neg hv, if_neg hv]

theorem latestTaskTimestamp_fold (parseTime : String → Option Int)
    (items : List Task) : ∀ (init : Int),
    items.foldl (latestStep parseTime) init =
    (parsedTimes parseTime items).foldl
      (fun latest time => if time > latest then time else latest) init := by
  induction items with
  | nil => intro init; rfl
  | cons t items ih =>
    intro init
    simp only [List.foldl_cons, parsedTimes, List.filterMap_cons]
    rw [latestStep_eq]
    cases he : effTime parseTime t with
    | none =>
      simp only []
      exact ih init
    | some time =>
      simp only [List.foldl_cons]
      exact ih _

theorem foldMax_spec (L : List Int) : ∀ (a : Int),
    (L.foldl (fun latest time => if time > latest then time else latest) a = a ∨
      L.foldl (fun latest time => if time > latest then time else latest) a ∈ L) ∧
    a ≤ L.foldl (fun latest time => if time > latest then time else latest) a ∧
    ∀ x ∈ L, x ≤ L.foldl (fun latest time => if time > latest then time else latest) a := by
  induction L with
  | nil => intro a; exact ⟨Or.inl rfl, le_refl a, by simp⟩
  | cons t L ih =>
    intro a
    simp only [List.foldl_cons]
    by_cases h : t > a
    · rw [if_pos h]
      rcases ih t with ⟨hmem, hle, hall⟩
      refine ⟨?_, ?_, ?_⟩
      · rcases hmem with hm | hm
        · exact Or.inr (by simp [hm])
        · exact Or.inr (by simp [hm])
      · exact le_of_lt (lt_of_lt_of_le h hle)
      · intro x hx
        rcases List.mem_cons.mp hx with hx | hx
        · exact hx ▸ hle
        · exact hall x hx
    · rw [if_neg h]
      rcases ih a with ⟨hmem, hle, hall⟩
      refine ⟨?_, hle, ?_⟩
      · rcases hmem with hm | hm
        · exact Or.inl hm
        · exact Or.inr (by simp [hm])
      · intro x hx
        rcases List.mem_cons.mp hx with hx | hx
        · exact hx ▸ le_trans (le_of_not_lt h) hle
        · exact hall x hx

/-- C8 amended.  The tracker returns the maximum among effective
timestamps that parse to a strictly positive epoch offset, serialized;
it returns none exactly when no entity's effective timestamp parses to a
positive value — missing, unparseable, and epoch-or-earlier timestamps
are all skipped without being fatal. -/
theorem C8_latest_cursor_amended (parseTime : String → Option Int)
    (toISO : Int → String) (items : List Task) :
    (latestTaskTimestamp parseTime toISO items = none ↔
      ∀ t ∈ parsedTimes parseTime items, t ≤ 0) ∧
    (∀ m ∈ parsedTimes parseTime items, 0 < m →
      (∀ x ∈ parsedTimes parseTime items, x ≤ m) →
      latestTaskTimestamp parseTime toISO items = some (toISO m)) := by
  unfold latestTaskTimestamp
  rw [latestTaskTimestamp_fold]
  rcases foldMax_spec (parsedTimes parseTime items) 0 with ⟨hmem, hle, hall⟩
  set r := (parsedTimes parseTime items).foldl
    (fun latest time => if time > latest then time else latest) 0 with hr
  constructor
  · constructor
    · intro hnone t ht
      by_cases h0 : r ≠ 0
      · rw [if_pos h0] at hnone
        exact absurd hnone (by simp)
      · push_neg at h0
        exact le_trans (hall t ht) (le_of_eq h0)
    · intro hall0
      have h0 : r = 0 := by
        rcases hmem with hm | hm
        · exact hm
        · exact le_antisymm (hall0 r hm) hle
      rw [if_neg (by simp [h0])]
  · intro m hm hpos hmax
    have hrm : r = m := by
      have h1 : m ≤ r := hall m hm
      rcases hmem with h2 | h2
      · exact absurd (le_trans h1 (le_of_eq h2)) (not_le.mpr hpos)
      · exact le_antisymm (hmax r h2) h1
    rw [if_pos (by rw [hrm]; exact ne_of_gt hpos), hrm]

/-- A parse function for the witness: the string a parses to 5. -/
def toyParse (s : String) : Option Int := if s = "a" then some 5 else none

/-- A serializer for the witness. -/
def toyISO (n : Int) : String := toString n

/-- Witness for the amended C8: one task whose timestamp parses to 5
yields the serialized 5. -/
theorem C8_latest_cursor_amended_witness :
    latestTaskTimestamp toyParse toyISO [{ id := "T1", updated_at := some "a" }] =
      some (toyISO 5) := by
  exact (C8_latest_cursor_amended toyParse toyISO
      [{ id := "T1", updated_at := some "a" }]).2 5 (by decide) (by decide)
    (by decide)

/-! ## Chat duplex session

Embedding of the chat message handler, the send path, and finalization.
The state carries the persisted history, the input box, the running
streaming buffer, the thinking flag, the status model, and the ready
state of the underlying socket; the socket becomes OPEN at the transport
handshake while the status model becomes connected only on the server's
connected frame, so the two are distinct fields. -/

inductive Role
  | user
  | assistant
deriving DecidableEq, Repr

structure ChatMessage where
  role : Role
  content : String
  timestamp : String
deriving DecidableEq, Repr

inductive WsStatus
  | connecting
  | connected
  | disconnected
  | error
deriving DecidableEq, Repr

/-- Ready state of the underlying socket; opened models OPEN. -/
inductive ReadyState
  | connecting
  | opened
  | closing
  | closed
deriving DecidableEq, Repr

structure ChatState where
  messages : List ChatMessage
  input : String
  streaming : String
  isThinking : Bool
  wsStatus : WsStatus
  readyState : Option ReadyState
deriving DecidableEq, Repr

/-- Inbound frames of the duplex protocol, by discriminator. -/
inductive ServerFrame
  | connected
  | delta (content : String)
  | final (content : Option String)
  | status (s : String)
  | error (message : Option String)

/-- JS falsy-or on strings: the empty string is falsy. -/
def jsOrS (a b : String) : String := if a = "" then b else a

/-- Embedding of the onmessage dispatch.  The final branch reads the
current running buffer, takes the terminal content, else the buffer,
else the placeholder, appends one assistant message and clears the
buffer; an absent terminal content behaves as the empty string under the
falsy-or. -/
def onMessage (now : String) (st : ChatState) : ServerFrame → ChatState
  | .connected => { st with wsStatus := .connected }
  | .delta c => { st with isThinking := false, streaming := st.streaming ++ c }
  | .final c =>
    { st with isThinking := false,
              streaming := "",
              messages := st.messages ++
                [{ role := .assistant,
                   content := jsOrS (jsOrS (c.getD "") st.streaming) "...",
                   timestamp := now }] }
  | .status s =>
    if s = "thinking" then { st with isThinking := true }
    else if s = "idle" then { st with isThinking := false }
    else st
  | .error m =>
    { st with isThinking := false,
              streaming := "",
              messages := st.messages ++
                [{ role := .assistant,
                   content := "Error: " ++ m.getD "Unknown error",
                   timestamp := now }] }

/-- Outbound frame of the duplex protocol. -/
structure OutFrame where
  type : String
  content : String
deriving DecidableEq, Repr

/-- Both-ends whitespace trim on a string, by character list (the JS
trim used on the submitted input). -/
def jsTrim (s : String) : String := String.mk (trimChars s.data)

/-- Embedding of sendMessage: trim the input; when the trimmed text is
empty, the socket ref is null, or the socket is not OPEN, do nothing;
otherwise append the user message, clear the input and the running
buffer, set thinking, and send exactly one typed send frame. -/
def sendMessage (now : String) (st : ChatState) : ChatState × List OutFrame :=
  let text := jsTrim st.input
  if text = "" ∨ st.readyState ≠ some .opened then (st, [])
  else
    ({ st with
        messages := st.messages ++
          [{ role := .user, content := text, timestamp := now }],
        input := "",
        streaming := "",
        isThinking := true },
     [{ type := "send", content := text }])

/-- Fresh open-panel chat state used by the concrete scenarios. -/
def chatState0 : ChatState :=
  { messages := [], input := "", streaming := "", isThinking := false,
    wsStatus := .connected, readyState := some .opened }

/-- C4.  Finalization produces an assistant message whose content is the
terminal text when present and non-empty, otherwise the running buffer
when non-empty, otherwise the placeholder, and always resets the running
buffer to empty; in particular deltas Hel then lo followed by an
empty-content terminal finalize to Hello, and a terminal with content
Hi there wins regardless of prior deltas. -/
theorem C4_finalization (now : String) (st : ChatState) (c : Option String) :
    (onMessage now st (.final c)).streaming = "" ∧
    (onMessage now st (.final c)).messages =
      st.messages ++
        [{ role := .assistant,
           content :=
             match c with
             | some s =>
               if s ≠ "" then s
               else if st.streaming ≠ "" then st.streaming else "..."
             | none => if st.streaming ≠ "" then st.streaming else "...",
           timestamp := now }] ∧
    (onMessage "t2" (onMessage "t1" (onMessage "t0" chatState0
        (.delta "Hel")) (.delta "lo")) (.final (some ""))).messages =
      [{ role := .assistant, content := "Hello", timestamp := "t2" }] ∧
    ∀ st2 : ChatState,
      (onMessage "t3" st2 (.final (some "Hi there"))).messages =
        st2.messages ++
          [{ role := .assistant, content := "Hi there", timestamp := "t3" }] := by
  refine ⟨rfl, ?_, by decide, ?_⟩
  · show st.messages ++ _ = st.messages ++ _
    cases c with
    | none =>
      simp only [onMessage, jsOrS, Option.getD_none, if_pos rfl]
      by_cases hs : st.streaming = "" <;> simp [hs]
    | some s =>
      by_cases hs : s = ""
      · subst hs
        simp only [onMessage, jsOrS, Option.getD_some, if_pos rfl]
        by_cases hb : st.streaming = "" <;> simp [hb]
      · simp [onMessage, jsOrS, hs]
  · intro st2
    simp [onMessage, jsOrS]

/-- C5 fails on the code: after a first terminal frame has cleared the
running buffer, a duplicate terminal frame arriving before a new turn
appends a second assistant message — the handler has no duplicate
guard.  The history after the duplicate is one message longer than after
the first, instead of equal to it. -/
theorem C5_duplicate_final_code_bug :
    (onMessage "t2" (onMessage "t1" chatState0 (.final (some "Hi")))
        (.final (some "Hi"))).messages.length =
      (onMessage "t1" chatState0 (.final (some "Hi"))).messages.length + 1 ∧
    (onMessage "t2" (onMessage "t1" chatState0 (.final (some "Hi")))
        (.final (some "Hi"))).messages ≠
      (onMessage "t1" chatState0 (.final (some "Hi"))).messages ∧
    (onMessage "t2" (onMessage "t1" chatState0 (.final (some "")))
        (.final (some ""))).messages.length =
      (onMessage "t1" chatState0 (.final (some ""))).messages.length + 1 := by
  refine ⟨rfl, by decide, rfl⟩

/-- State reachable between the transport handshake and the server's
connected acknowledgment: the socket is OPEN while the status model
still shows connecting. -/
def connectingOpenState : ChatState :=
  { messages := [], input := "hi", streaming := "", isThinking := false,
    wsStatus := .connecting, readyState := some .opened }

/-- Counterexample to C9 as stated: with the connection not in the
connected state (status connecting) but the socket OPEN, a non-empty
submission is accepted — the user message is appended and one typed
frame is sent — so sending is not rejected whenever the state differs
from connected; the gate actually tested is the socket ready state. -/
theorem C9_send_gate_counterexample :
    connectingOpenState.wsStatus ≠ WsStatus.connected ∧
    (sendMessage "t0" connectingOpenState).1.messages =
      [{ role := .user, content := "hi", timestamp := "t0" }] ∧
    (sendMessage "t0" connectingOpenState).2 =
      [{ type := "send", content := "hi" }] := by
  refine ⟨by decide, rfl, rfl⟩

/-- C9 amended.  The send path is gated on the underlying socket being
OPEN rather than on the connected status: for every state with a
non-empty trimmed input, if the socket is OPEN the user message is
appended to history optimistically and exactly one typed send frame is
sent; if the socket is not OPEN or absent, nothing is appended and
nothing is sent.  The rejection is surfaced to the user only through the
send button, disabled unless the status model is connected. -/
theorem C9_send_gate_amended (now : String) (st : ChatState) :
    (jsTrim st.input ≠ "" → st.readyState = some .opened →
      sendMessage now st =
        ({ st with
            messages := st.messages ++
              [{ role := .user, content := jsTrim st.input, timestamp := now }],
            input := "", streaming := "", isThinking := true },
         [{ type := "send", content := jsTrim st.input }])) ∧
    (st.readyState ≠ some .opened → sendMessage now st = (st, [])) := by
  constructor
  · intro h1 h2
    unfold sendMessage
    rw [if_neg fun hor => hor.elim h1 fun hne => hne h2]
  · intro h
    unfold sendMessage
    rw [if_pos (Or.inr h)]

/-- Witness for the amended C9: a state with input yo and an OPEN socket
sends exactly one frame and appends the user message; the same state
with a closed socket is a no-op. -/
theorem C9_send_gate_amended_witness :
    sendMessage "t0"
        { messages := [], input := "yo", streaming := "", isThinking := false,
          wsStatus := .connected, readyState := some .opened } =
      ({ messages := [{ role := .user, content := "yo", timestamp := "t0" }],
         input := "", streaming := "", isThinking := true,
         wsStatus := .connected, readyState := some .opened },
       [{ type := "send", content := "yo" }]) ∧
    sendMessage "t0"
        { messages := [], input := "yo", streaming := "", isThinking := false,
          wsStatus := .connected, readyState := some .closed } =
      ({ messages := [], input := "yo", streaming := "", isThinking := false,
         wsStatus := .connected, readyState := some .closed }, []) := by
  constructor
  · exact ((C9_send_gate_amended "t0"
      { messages := [], input := "yo", streaming := "", isThinking := false,
        wsStatus := .connected, readyState := some .opened }).1
      (by decide) rfl).trans (by decide)
  · exact (C9_send_gate_amended "t0"
      { messages := [], input := "yo", streaming := "", isThinking := false,
        wsStatus := .connected, readyState := some .closed }).2 (by decide)

/-- C10.  An accepted user submission unconditionally clears the running
streaming buffer and sets the thinking flag, so assistant text
accumulated from delta frames whose terminal frame never arrived is
silently discarded — never converted into a persisted assistant
message — and the new history is exactly the old history plus the new
user message. -/
theorem C10_send_discards_stream (now : String) (st : ChatState)
    (h1 : jsTrim st.input ≠ "") (h2 : st.readyState = some .opened) :
    (sendMessage now st).1.streaming = "" ∧
    (sendMessage now st).1.isThinking = true ∧
    (sendMessage now st).1.messages =
      st.messages ++
        [{ role := .user, content := jsTrim st.input, timestamp := now }] := by
  unfold sendMessage
  rw [if_neg fun hor => hor.elim h1 fun hne => hne h2]
  exact ⟨rfl, rfl, rfl⟩

/-- Witness for C10: a state with an orphaned streaming buffer loses it
on send, and the history gains only the user message. -/
theorem C10_send_discards_stream_witness :
    (sendMessage "t0"
        { messages := [], input := "go", streaming := "orphan",
          isThinking := false, wsStatus := .connected,
          readyState := some .opened }).1.streaming = "" ∧
    (sendMessage "t0"
        { messages := [], input := "go", streaming := "orphan",
          isThinking := false, wsStatus := .connected,
          readyState := some .opened }).1.messages =
      [{ role := .user, content := "go", timestamp := "t0" }] := by
  have h := C10_send_discards_stream "t0"
    { messages := [], input := "go", streaming := "orphan",
      isThinking := false, wsStatus := .connected, readyState := some .opened }
    (by decide) rfl
  exact ⟨h.1, h.2.2.trans (by decide)⟩

/-! ## Chat reconnect lifecycle

Operational model of the chat panel's connection lifecycle.  The open
effect runs connect when the panel opens and, on cleanup, clears the
reconnect timer handle it sees and closes the socket.  Closures are
modelled per JS semantics: the close handler and the timer callback of a
socket belong to the connect closure that created it and read the open
value captured at that render; a later state change does not rewrite
them.  A close event is dispatched asynchronously, after the cleanup
that called close has already finished, and the timer it schedules is a
fresh handle the finished cleanup can no longer clear. -/

structure ChatSession where
  panelOpen : Bool
  /-- Live socket, carrying the open value captured by its handlers. -/
  socket : Option Bool
  /-- Queued close events, each carrying its handler's captured open. -/
  pendingClose : List Bool
  /-- Scheduled reconnect callback and its captured open. -/
  reconnectTimer : Option Bool
  connectAttempts : Nat
deriving DecidableEq, Repr

/-- Embedding of connect: count one connection attempt, close a previous
socket (its close event is delivered later), install the new socket whose
handlers capture the given open value. -/
def connectRun (capturedOpen : Bool) (s : ChatSession) : ChatSession :=
  { s with connectAttempts := s.connectAttempts + 1,
           pendingClose := s.pendingClose ++
             (match s.socket with | some o => [o] | none => []),
           socket := some capturedOpen }

inductive ChatEvent
  | openPanel
  | closePanel
  | deliverClose
  | timerFire

/-- One lifecycle step.  openPanel runs the open effect (connect with
captured open true).  closePanel runs the effect cleanup: it clears the
timer handle present now, closes and nulls the socket; the close event
is queued for later delivery.  deliverClose runs a queued close handler:
it schedules a reconnect timer capturing that handler's open value.
timerFire runs a due timer: when its captured open is true it calls the
captured connect closure. -/
def chatLifecycleStep (s : ChatSession) : ChatEvent → ChatSession
  | .openPanel => connectRun true { s with panelOpen := true }
  | .closePanel =>
    { s with panelOpen := false,
             reconnectTimer := none,
             pendingClose := s.pendingClose ++
               (match s.socket with | some o => [o] | none => []),
             socket := none }
  | .deliverClose =>
    match s.pendingClose with
    | [] => s
    | o :: rest => { s with pendingClose := rest, reconnectTimer := some o }
  | .timerFire =>
    match s.reconnectTimer with
    | none => s
    | some o =>
      if o then connectRun o { s with reconnectTimer := none }
      else { s with reconnectTimer := none }

/-- Idle session before the panel ever opened. -/
def chatSessionInit : ChatSession :=
  { panelOpen := false, socket := none, pendingClose := [],
    reconnectTimer := none, connectAttempts := 0 }

/-- C6 fails on the chat session manager: closing the panel (the explicit
cancellation) closes the socket, but the socket's close handler — whose
captured open value is still true — then runs after the cleanup and
schedules a reconnect timer that the already-finished cleanup never
clears; when the fixed delay elapses the stale closure reconnects, so a
new connection attempt and a live socket exist after cancellation. -/
theorem C6_cancelled_reconnect_code_bug :
    ([ChatEvent.openPanel, ChatEvent.closePanel].foldl chatLifecycleStep
        chatSessionInit).connectAttempts = 1 ∧
    ([ChatEvent.openPanel, ChatEvent.closePanel].foldl chatLifecycleStep
        chatSessionInit).panelOpen = false ∧
    ([ChatEvent.openPanel, ChatEvent.closePanel, ChatEvent.deliverClose,
        ChatEvent.timerFire].foldl chatLifecycleStep
        chatSessionInit).connectAttempts = 2 ∧
    ([ChatEvent.openPanel, ChatEvent.closePanel, ChatEvent.deliverClose,
        ChatEvent.timerFire].foldl chatLifecycleStep
        chatSessionInit).socket = some true ∧
    ([ChatEvent.openPanel, ChatEvent.closePanel, ChatEvent.deliverClose,
        ChatEvent.timerFire].foldl chatLifecycleStep
        chatSessionInit).panelOpen = false := by
  refine ⟨rfl, rfl, rfl, rfl, rfl⟩

/-! ## Open-task switching and the comment gate

The two board-page variants differ exactly where C7 looks.  In the
variant whose stream effect lists the selected task id among its
dependencies, a selection change makes React run the cleanup of the
previous effect (cancel flag set, fetch aborted) and start a new effect
that opens a new connection.  In the variant whose effect omits it, the
connection persists across the switch, but the setComments updater reads
the selectedTask constant captured by the connect closure when the
effect last ran, not the current selection. -/

structure Page000Stream where
  selectedTaskId : Option String
  /-- Generation of the currently running stream effect. -/
  streamGen : Nat
  /-- Generations whose cleanup ran (isCancelled set, fetch aborted). -/
  cancelledGens : List Nat
deriving DecidableEq, Repr

/-- Selection change on the variant whose effect depends on the selected
task id: equal deps leave the effect alone; different deps run the old
effect's cleanup and start a new effect, i.e. a new connection. -/
def selectTask000 (st : Page000Stream) (tid : Option String) : Page000Stream :=
  if tid = st.selectedTaskId then st
  else
    { selectedTaskId := tid,
      streamGen := st.streamGen + 1,
      cancelledGens := st.cancelledGens ++ [st.streamGen] }

/-- Comment updater of the variant whose effect omits the selected task
id from its dependencies: the gate compares against the selection
captured when the effect ran, ignoring the current one. -/
def commentUpdater001 (capturedSelectedId : Option String)
    (_currentSelectedId : Option String)
    (prev : List TaskComment) (c : TaskComment) : List TaskComment :=
  applyComment capturedSelectedId prev c

/-- C7 fails on both board-page variants.  In the variant with the
selected task id in the effect dependencies, switching the open task
cancels the running connection and opens a new one, so the same
connection does not keep running.  In the variant without it, the
connection persists but the gate keeps the stale captured selection, so
a comment for the newly opened task is discarded where a synchronously
updated gate would append it. -/
theorem C7_open_task_gate_code_bug :
    selectTask000 { selectedTaskId := none, streamGen := 0, cancelledGens := [] }
        (some "T1") =
      { selectedTaskId := some "T1", streamGen := 1, cancelledGens := [0] } ∧
    commentUpdater001 none (some "T1") []
        { id := "c9", message := some "m", task_id := some "T1" } = [] ∧
    applyComment (some "T1") []
        { id := "c9", message := some "m", task_id := some "T1" } =
      [{ id := "c9", message := some "m", task_id := some "T1" }] := by
  refine ⟨by decide, by decide, by decide⟩

end OpenClaw
